import Mathlib

/-!
Verification of the reneel-utils repository: a shallow embedding of
`src/format_edgelist.py`, `src/run_reneel.py` and `reneelutil/data.py`
together with theorems settling the specification claims.

Conventions of the embedding:
* Python `dict` / `AddDict` / `Counter` objects are association lists in
  insertion order; `AddDict.__missing__` (default `0`) is modelled by the
  `lookupD`/`addTo` pair below.
* Python `int` is `Int` (node ids, weights) or `Nat` (counts, line numbers).
* Fallible operations (splitting, indexing, numeric conversion) return
  `Option`; an uncaught Python exception is an explicit error constructor.
-/

namespace ReneelUtils

/-- `lookupD l k d`: Python `dict` lookup with default `d`
(the `AddDict.__missing__` behaviour of `format_edgelist.py`). -/
def lookupD {κ ν : Type} [DecidableEq κ] : List (κ × ν) → κ → ν → ν
  | [], _, d => d
  | (a, x) :: rest, k, d => if a = k then x else lookupD rest k d

/-- `addTo l k w`: the statement `l[k] += w` on an `AddDict`/`Counter`:
if `k` is present its value grows by `w`, otherwise `(k, w)` is appended
(Python dicts keep insertion order, and the missing-key default is `0`). -/
def addTo {κ ν : Type} [DecidableEq κ] [Add ν] : List (κ × ν) → κ → ν → List (κ × ν)
  | [], k, w => [(k, w)]
  | (a, x) :: rest, k, w =>
      if a = k then (a, x + w) :: rest else (a, x) :: addTo rest k w

/-- The state accumulated by `read_graph` in `format_edgelist.py`:
`nodes` (node ↦ total incident weight), `degrees` (node ↦ incident edge
count) and `edges` (canonical pair ↦ aggregated weight). -/
structure GraphState (α : Type) where
  nodes : List (α × Int)
  degrees : List (α × Nat)
  edges : List ((α × α) × Int)
deriving DecidableEq

/-- The empty state `read_graph` starts from. -/
def GraphState.empty {α : Type} : GraphState α := ⟨[], [], []⟩

/-- Lines 53–54 of `format_edgelist.py`: in undirected mode an edge
`(u, v)` is canonicalised to `(max u v, min u v)`; in directed mode it
is kept as is. -/
def canon {α : Type} [LinearOrder α] (directed : Bool) (u v : α) : α × α :=
  if directed then (u, v) else (max u v, min u v)

/-- Lines 52–62 of `format_edgelist.py` for one already-converted input
triple `(u, v, w)`: canonicalise, then — unless the endpoints coincide
(a self-loop, which is only logged) — add `w` to both endpoint weights,
bump both degrees and add `w` to the edge entry. -/
def processLine {α : Type} [LinearOrder α] (directed : Bool)
    (st : GraphState α) (t : α × α × Int) : GraphState α :=
  let c := canon directed t.1 t.2.1
  if c.1 ≠ c.2 then
    { nodes := addTo (addTo st.nodes c.1 t.2.2) c.2 t.2.2
      degrees := addTo (addTo st.degrees c.1 1) c.2 1
      edges := addTo st.edges c t.2.2 }
  else st

/-- `read_graph` of `format_edgelist.py`, at the level of
already-split-and-converted lines: fold `processLine` over the input
from the empty state. -/
def read_graph {α : Type} [LinearOrder α] (directed : Bool)
    (lines : List (α × α × Int)) : GraphState α :=
  lines.foldl (processLine directed) GraphState.empty

/-- Sum of the values of an association list (e.g. the total of all node
weights, or of all edge weights). -/
def valsSum {κ : Type} (l : List (κ × Int)) : Int :=
  (l.map Prod.snd).sum

theorem valsSum_addTo {κ : Type} [DecidableEq κ]
    (l : List (κ × Int)) (k : κ) (w : Int) :
    valsSum (addTo l k w) = valsSum l + w := by
  induction l with
  | nil => simp [addTo, valsSum]
  | cons p rest ih =>
      obtain ⟨a, x⟩ := p
      by_cases h : a = k <;> simp [addTo, h, valsSum] at ih ⊢ <;> omega

theorem processLine_balance {α : Type} [LinearOrder α] (d : Bool)
    (st : GraphState α) (t : α × α × Int)
    (h : valsSum st.nodes = 2 * valsSum st.edges) :
    valsSum (processLine d st t).nodes = 2 * valsSum (processLine d st t).edges := by
  by_cases hc : (canon d t.1 t.2.1).1 = (canon d t.1 t.2.1).2
  · simp [processLine, hc, h]
  · simp only [processLine, hc, ne_eq, not_false_eq_true, if_true, valsSum_addTo]
    omega

theorem foldl_balance {α : Type} [LinearOrder α] (d : Bool)
    (lines : List (α × α × Int)) :
    ∀ st : GraphState α, valsSum st.nodes = 2 * valsSum st.edges →
      valsSum (lines.foldl (processLine d) st).nodes =
        2 * valsSum (lines.foldl (processLine d) st).edges := by
  induction lines with
  | nil => intro st h; simpa using h
  | cons t rest ih =>
      intro st h
      exact ih (processLine d st t) (processLine_balance d st t h)

/-- C9: for every edgelist read by `read_graph` (directed or not), the
sum of the per-node aggregate incident weights is exactly twice the sum
of the aggregated edge weights: each accepted non-self-loop line adds
its weight to both endpoints and once to the edge map. -/
theorem read_graph_weight_balance (d : Bool) (lines : List (Int × Int × Int)) :
    valsSum (read_graph d lines).nodes = 2 * valsSum (read_graph d lines).edges :=
  foldl_balance d lines GraphState.empty (by simp [GraphState.empty, valsSum])

theorem processLine_eq_of_canon_eq {α : Type} [LinearOrder α] (d : Bool)
    (st : GraphState α) (t : α × α × Int)
    (h : (canon d t.1 t.2.1).1 = (canon d t.1 t.2.1).2) :
    processLine d st t = st := by
  unfold processLine
  simp [h]

/-- C8: an input line whose endpoints are equal after conversion and
canonicalisation leaves the whole state — node weights, degrees and
edges — unchanged. -/
theorem processLine_self_loop {α : Type} [LinearOrder α] (d : Bool)
    (st : GraphState α) (t : α × α × Int)
    (h : (canon d t.1 t.2.1).1 = (canon d t.1 t.2.1).2) :
    processLine d st t = st :=
  processLine_eq_of_canon_eq d st t h

/-- Witness for C8 at a concrete self-loop, the `(1,1,5)` line of the
spec's worked example. -/
theorem processLine_self_loop_witness :
    processLine false (GraphState.empty (α := Int)) (1, 1, 5) = GraphState.empty :=
  processLine_self_loop false GraphState.empty (1, 1, 5) (by decide)

theorem lookupD_addTo {κ : Type} [DecidableEq κ]
    (l : List (κ × Int)) (k p : κ) (w : Int) :
    lookupD (addTo l k w) p 0 = lookupD l p 0 + (if p = k then w else 0) := by
  induction l with
  | nil =>
      simp only [addTo, lookupD]
      by_cases h : k = p
      · subst h; simp
      · rw [if_neg h, if_neg fun hh => h hh.symm, zero_add]
  | cons q rest ih =>
      obtain ⟨a, x⟩ := q
      simp only [addTo]
      by_cases hak : a = k
      · rw [if_pos hak]
        subst hak
        simp only [lookupD]
        by_cases hap : a = p
        · subst hap; simp
        · rw [if_neg hap, if_neg hap, if_neg fun hh => hap hh.symm, add_zero]
      · rw [if_neg hak]
        simp only [lookupD]
        by_cases hap : a = p
        · rw [if_pos hap, if_pos hap, if_neg fun hh : p = k => hak (hap.trans hh),
            add_zero]
        · rw [if_neg hap, if_neg hap]
          exact ih

theorem mem_keys_addTo {κ ν : Type} [DecidableEq κ] [Add ν]
    (l : List (κ × ν)) (k : κ) (w : ν) (q : κ)
    (h : q ∈ (addTo l k w).map Prod.fst) : q ∈ l.map Prod.fst ∨ q = k := by
  induction l with
  | nil => simpa [addTo] using h
  | cons p rest ih =>
      obtain ⟨a, x⟩ := p
      by_cases hak : a = k
      · simp only [addTo, if_pos hak, List.map_cons, List.mem_cons] at h
        exact Or.inl (by simpa using h)
      · simp only [addTo, if_neg hak, List.map_cons, List.mem_cons] at h
        rcases h with h | h
        · exact Or.inl (by simp [h])
        · rcases ih h with h' | h'
          · exact Or.inl (by simp only [List.map_cons, List.mem_cons]; exact Or.inr h')
          · exact Or.inr h'

/-- Every key ever inserted in the `edges` dict is a canonical pair with
distinct components (line 55's `u != v` guard). -/
theorem edges_keys_ne {α : Type} [LinearOrder α] (d : Bool) :
    ∀ (lines : List (α × α × Int)) (st : GraphState α),
      (∀ q ∈ st.edges.map Prod.fst, q.1 ≠ q.2) →
      ∀ q ∈ ((lines.foldl (processLine d) st).edges.map Prod.fst), q.1 ≠ q.2 := by
  intro lines
  induction lines with
  | nil => intro st h; simpa using h
  | cons t rest ih =>
      intro st h
      apply ih
      intro q hq
      by_cases hc : (canon d t.1 t.2.1).1 = (canon d t.1 t.2.1).2
      · rw [processLine_eq_of_canon_eq d st t hc] at hq
        exact h q hq
      · simp only [processLine, if_pos, hc, ne_eq, not_false_eq_true, if_true] at hq
        rcases mem_keys_addTo _ _ _ _ hq with h' | h'
        · exact h q h'
        · subst h'; exact hc

theorem lookupD_eq_of_not_mem {κ ν : Type} [DecidableEq κ]
    (l : List (κ × ν)) (p : κ) (d : ν) (h : p ∉ l.map Prod.fst) :
    lookupD l p d = d := by
  induction l with
  | nil => rfl
  | cons q rest ih =>
      obtain ⟨a, x⟩ := q
      simp only [List.map_cons, List.mem_cons, not_or] at h
      simp only [lookupD, if_neg fun hh : a = p => h.1 hh.symm]
      exact ih h.2

/-- The aggregated weight of a canonical pair after folding the whole
file, relative to an arbitrary starting state. -/
theorem edges_lookup_foldl {α : Type} [LinearOrder α] (p : α × α) (hp : p.1 ≠ p.2) :
    ∀ (lines : List (α × α × Int)) (st : GraphState α),
      lookupD (lines.foldl (processLine false) st).edges p 0 =
        lookupD st.edges p 0 +
          ((lines.filter fun t => canon false t.1 t.2.1 = p).map fun t => t.2.2).sum := by
  intro lines
  induction lines with
  | nil => intro st; simp
  | cons t rest ih =>
      intro st
      by_cases hc : (canon false t.1 t.2.1).1 = (canon false t.1 t.2.1).2
      · have hcp : ¬ (canon false t.1 t.2.1 = p) := by
          intro h; exact hp (h ▸ hc)
        simp only [List.foldl_cons, processLine_eq_of_canon_eq false st t hc, ih st,
          List.filter_cons]
        simp [hcp]
      · simp only [List.foldl_cons, ih, List.filter_cons]
        have hstep : lookupD (processLine false st t).edges p 0 =
            lookupD st.edges p 0 + (if p = canon false t.1 t.2.1 then t.2.2 else 0) := by
          simp only [processLine, hc, ne_eq, not_false_eq_true, if_true]
          exact lookupD_addTo st.edges (canon false t.1 t.2.1) p t.2.2
        by_cases hcp : canon false t.1 t.2.1 = p
        · simp [hstep, hcp]; omega
        · have : ¬ p = canon false t.1 t.2.1 := fun h => hcp h.symm
          simp [hstep, hcp, this]

/-- The spec's description of undirected aggregation ("sums into a single
weight the weights of all input lines that map to the same canonical
pair"), stated from the spec's words for comparison with `read_graph`. -/
def specCanonWeight {α : Type} [LinearOrder α]
    (lines : List (α × α × Int)) (p : α × α) : Int :=
  if p.1 = p.2 then 0
  else ((lines.filter fun t => canon false t.1 t.2.1 = p).map fun t => t.2.2).sum

/-- C1: with `directed=False`, `read_graph` canonicalises every
non-self-loop edge to `(max u v, min u v)` and sums the weights of all
lines mapping to the same canonical pair; on the worked example
`(1,2,3), (2,1,4), (1,1,5)` it returns exactly one edge `(2,1)` with
weight `7`, node set `{1, 2}` and edge count `1`. -/
theorem read_graph_undirected_canonical_aggregation :
    (∀ (lines : List (Int × Int × Int)) (p : Int × Int),
        lookupD (read_graph false lines).edges p 0 = specCanonWeight lines p)
    ∧ (read_graph false [(1, 2, 3), (2, 1, 4), (1, 1, 5)]).edges = [((2, 1), 7)]
    ∧ ((read_graph false [(1, 2, 3), (2, 1, 4), (1, 1, 5)]).nodes.map Prod.fst).Perm [1, 2]
    ∧ (read_graph false [(1, 2, 3), (2, 1, 4), (1, 1, 5)]).edges.length = 1 := by
  refine ⟨fun lines p => ?_, by decide, by decide, by decide⟩
  by_cases hp : p.1 = p.2
  · have hmem : p ∉ (read_graph false lines).edges.map Prod.fst := by
      intro hmem
      exact edges_keys_ne false lines GraphState.empty (by simp [GraphState.empty]) p hmem hp
    rw [lookupD_eq_of_not_mem _ _ _ hmem, specCanonWeight, if_pos hp]
  · rw [specCanonWeight, if_neg hp, read_graph,
      edges_lookup_foldl p hp lines GraphState.empty]
    simp [GraphState.empty, lookupD]

theorem keys_addTo_nodup {κ ν : Type} [DecidableEq κ] [Add ν]
    (l : List (κ × ν)) (k : κ) (w : ν)
    (h : (l.map Prod.fst).Nodup) : ((addTo l k w).map Prod.fst).Nodup := by
  induction l with
  | nil => simp [addTo]
  | cons p rest ih =>
      obtain ⟨a, x⟩ := p
      simp only [List.map_cons, List.nodup_cons] at h
      by_cases hak : a = k
      · simp only [addTo, if_pos hak, List.map_cons, List.nodup_cons]
        exact ⟨h.1, h.2⟩
      · simp only [addTo, if_neg hak, List.map_cons, List.nodup_cons]
        refine ⟨fun hmem => ?_, ih h.2⟩
        rcases mem_keys_addTo rest k w a hmem with h' | h'
        · exact h.1 h'
        · exact hak h'

/-- The keys of the `nodes` dict stay distinct throughout the whole
read (they are dict keys in Python). -/
theorem nodes_keys_nodup {α : Type} [LinearOrder α] (d : Bool) :
    ∀ (lines : List (α × α × Int)) (st : GraphState α),
      (st.nodes.map Prod.fst).Nodup →
      ((lines.foldl (processLine d) st).nodes.map Prod.fst).Nodup := by
  intro lines
  induction lines with
  | nil => intro st h; simpa using h
  | cons t rest ih =>
      intro st h
      apply ih
      by_cases hc : (canon d t.1 t.2.1).1 = (canon d t.1 t.2.1).2
      · rw [processLine_eq_of_canon_eq d st t hc]; exact h
      · simp only [processLine, hc, ne_eq, not_false_eq_true, if_true]
        exact keys_addTo_nodup _ _ _ (keys_addTo_nodup _ _ _ h)

/-- Line 255 of `format_edgelist.py`:
`mapper = {v: i for i, v in enumerate(sorted(nodes), start=1)}` —
the nodes in sorted order, paired with `1, 2, …, N`. -/
def mapper {α : Type} [LinearOrder α] (ns : List α) : List (α × Nat) :=
  (ns.mergeSort fun a b => decide (a ≤ b)).zip (List.range' 1 ns.length)

/-- C2: the renumbering mapper built by `format_for_reneel` is a
bijection from the distinct nodes remaining after self-loop removal
onto `1..N` (`N` = number of those nodes), assigning `1..N` in sorted
node order: its keys are a duplicate-free permutation of the node set,
listed in sorted order, and its values are exactly `1, …, N` in order. -/
theorem format_for_reneel_mapper_bijection (d : Bool)
    (lines : List (Int × Int × Int)) :
    ((mapper ((read_graph d lines).nodes.map Prod.fst)).map Prod.fst).Perm
        ((read_graph d lines).nodes.map Prod.fst)
    ∧ (mapper ((read_graph d lines).nodes.map Prod.fst)).map Prod.snd =
        List.range' 1 ((read_graph d lines).nodes.map Prod.fst).length
    ∧ List.Sorted (· ≤ ·) ((mapper ((read_graph d lines).nodes.map Prod.fst)).map Prod.fst)
    ∧ ((mapper ((read_graph d lines).nodes.map Prod.fst)).map Prod.fst).Nodup := by
  set ns := (read_graph d lines).nodes.map Prod.fst with hns
  have hlen : (ns.mergeSort fun a b => decide (a ≤ b)).length = ns.length :=
    List.length_mergeSort ns
  have hfst : (mapper ns).map Prod.fst = ns.mergeSort fun a b => decide (a ≤ b) := by
    rw [mapper]
    exact List.map_fst_zip _ _ (by rw [hlen, List.length_range'])
  have hsnd : (mapper ns).map Prod.snd = List.range' 1 ns.length := by
    rw [mapper]
    exact List.map_snd_zip _ _ (by rw [hlen, List.length_range'])
  have hperm : (ns.mergeSort fun a b => decide (a ≤ b)).Perm ns :=
    List.mergeSort_perm ns _
  have hnodup : ns.Nodup :=
    nodes_keys_nodup d lines GraphState.empty (by simp [GraphState.empty])
  have hsorted : List.Sorted (· ≤ ·) (ns.mergeSort fun a b => decide (a ≤ b)) := by
    have h := @List.sorted_mergeSort Int (fun a b => decide (a ≤ b))
      (fun a b c hab hbc => by
        simp only [decide_eq_true_eq] at hab hbc ⊢
        exact le_trans hab hbc)
      (fun a b => by
        simp only [Bool.or_eq_true, decide_eq_true_eq]
        exact le_total a b)
      ns
    exact h.imp fun {a b} hab => by simpa using hab
  refine ⟨?_, ?_, ?_, ?_⟩
  · rw [hfst]; exact hperm
  · exact hsnd
  · rw [hfst]; exact hsorted
  · rw [hfst]; exact hperm.symm.nodup hnodup

/-- `write_key` of `format_edgelist.py`: one line per mapper entry,
`print(f"{k} {v}", file=dest)`. At token level (the original ids are
whitespace-free, so `split()` recovers the two fields) the line for
`(k, v)` carries the tokens `reprK k` and `Nat.repr v`, where `reprK`
models Python's string formatting of the original id. -/
def write_key {α : Type} (reprK : α → String) (m : List (α × Nat)) :
    List (List String) :=
  m.map fun kv => [reprK kv.1, Nat.repr kv.2]

/-- Python `d[k] = v` on a dict: overwrite an existing key in place,
otherwise append (insertion order). -/
def dictInsert {κ ν : Type} [DecidableEq κ] : List (κ × ν) → κ → ν → List (κ × ν)
  | [], k, v => [(k, v)]
  | (a, x) :: rest, k, v =>
      if a = k then (a, v) :: rest else (a, x) :: dictInsert rest k v

/-- `read_key` of `format_edgelist.py`:
`{int(l.split()[1].strip()): cvt(l.split()[0].strip()) for l in source.readlines() if l.strip()}`.
Blank lines (no tokens) are dropped; each remaining line contributes the
entry `formatted_id ↦ cvt original_id`, later lines overwriting earlier
ones as in a Python dict comprehension. `parseNat` models `int`. -/
def read_key {α : Type} (parseNat : String → Nat) (cvt : String → α)
    (fileLines : List (List String)) : List (Nat × α) :=
  (fileLines.filter fun l => decide (l ≠ [])).foldl
    (fun d l => dictInsert d (parseNat (l.getD 1 "")) (cvt (l.getD 0 ""))) []

theorem lookup_dictInsert {κ ν : Type} [DecidableEq κ]
    (d : List (κ × ν)) (k k' : κ) (v : ν) :
    (dictInsert d k v).lookup k' = if k' = k then some v else d.lookup k' := by
  induction d with
  | nil =>
      by_cases h : k' = k
      · simp [dictInsert, List.lookup, h]
      · simp [dictInsert, List.lookup, h, beq_eq_false_iff_ne.mpr h]
  | cons p rest ih =>
      obtain ⟨a, x⟩ := p
      by_cases hak : a = k
      · subst hak
        by_cases h : k' = a
        · simp [dictInsert, List.lookup, h]
        · simp [dictInsert, List.lookup, h, beq_eq_false_iff_ne.mpr h]
      · by_cases h : k' = a
        · subst h
          simp [dictInsert, hak, List.lookup, fun hh : k' = k => hak hh]
        · simp [dictInsert, hak, List.lookup, h, beq_eq_false_iff_ne.mpr h, ih]

/-- Folding dict insertions for keys that avoid `v` leaves the entry at
`v` untouched. -/
theorem foldl_dictInsert_lookup_not_mem {κ ν : Type} [DecidableEq κ] :
    ∀ (l : List (κ × ν)) (d : List (κ × ν)) (v : κ),
      v ∉ l.map Prod.fst →
      (l.foldl (fun d q => dictInsert d q.1 q.2) d).lookup v = d.lookup v := by
  intro l
  induction l with
  | nil => intro d v _; rfl
  | cons q rest ih =>
      intro d v hv
      simp only [List.map_cons, List.mem_cons, not_or] at hv
      simp only [List.foldl_cons, ih _ v hv.2, lookup_dictInsert, if_neg hv.1]

/-- With duplicate-free keys, the folded dict maps each inserted key to
its inserted value. -/
theorem foldl_dictInsert_lookup_mem {κ ν : Type} [DecidableEq κ] :
    ∀ (l : List (κ × ν)) (d : List (κ × ν)) (v : κ) (k : ν),
      (l.map Prod.fst).Nodup → (v, k) ∈ l →
      (l.foldl (fun d q => dictInsert d q.1 q.2) d).lookup v = some k := by
  intro l
  induction l with
  | nil => intro d v k _ h; simp at h
  | cons q rest ih =>
      intro d v k hnd hmem
      simp only [List.map_cons, List.nodup_cons] at hnd
      rcases List.mem_cons.mp hmem with h | h
      · subst h
        simp only [List.foldl_cons,
          foldl_dictInsert_lookup_not_mem rest _ v hnd.1,
          lookup_dictInsert]
        simp
      · exact List.foldl_cons _ _ ▸ ih _ v k hnd.2 h

theorem foldl_congr_mem {β γ : Type} (f g : γ → β → γ) :
    ∀ (l : List β) (b : γ), (∀ a ∈ l, ∀ c, f c a = g c a) →
      l.foldl f b = l.foldl g b := by
  intro l
  induction l with
  | nil => intro b _; rfl
  | cons a rest ih =>
      intro b h
      simp only [List.foldl_cons, h a (by simp)]
      exact ih _ fun x hx c => h x (by simp [hx]) c

/-- C3: writing an injective mapper with `write_key` and reading the
file back with `read_key` (with a conversion consistent with the
original id type, and whitespace-free original ids) yields exactly the
inverse mapping: the read-back key maps a new id `v` to `k` precisely
when the mapper sent `k` to `v`. -/
theorem write_read_key_roundtrip {α : Type} [DecidableEq α]
    (reprK : α → String) (cvt : String → α) (parseNat : String → Nat)
    (m : List (α × Nat))
    (hk : ∀ p ∈ m, cvt (reprK p.1) = p.1)
    (hv : ∀ p ∈ m, parseNat (Nat.repr p.2) = p.2)
    (hinj : (m.map Prod.snd).Nodup)
    (k : α) (v : Nat) :
    (read_key parseNat cvt (write_key reprK m)).lookup v = some k ↔ (k, v) ∈ m := by
  have hfilter : ((write_key reprK m).filter fun l => decide (l ≠ [])) =
      write_key reprK m := by
    apply List.filter_eq_self.mpr
    intro l hl
    rcases List.mem_map.mp hl with ⟨p, _, rfl⟩
    simp
  have hread : read_key parseNat cvt (write_key reprK m) =
      (m.map fun p => ((p.2 : Nat), p.1)).foldl
        (fun d q => dictInsert d q.1 q.2) [] := by
    rw [read_key, hfilter, write_key, List.foldl_map, List.foldl_map]
    apply foldl_congr_mem
    intro p hp c
    simp [List.getD, hk p hp, hv p hp]
  rw [hread]
  have hnd : ((m.map fun p => ((p.2 : Nat), p.1)).map Prod.fst).Nodup := by
    simpa [Function.comp] using hinj
  constructor
  · intro h
    by_cases hmem : v ∈ (m.map fun p => ((p.2 : Nat), p.1)).map Prod.fst
    · rcases List.mem_map.mp hmem with ⟨q, hq, hqv⟩
      rcases List.mem_map.mp hq with ⟨p, hp, rfl⟩
      have hpv : p.2 = v := hqv
      have hin : (v, p.1) ∈ m.map fun p => ((p.2 : Nat), p.1) :=
        List.mem_map.mpr ⟨p, hp, by rw [← hpv]⟩
      rw [foldl_dictInsert_lookup_mem _ _ _ _ hnd hin] at h
      have hk1 : p.1 = k := Option.some_inj.mp h
      subst hk1
      subst hpv
      exact hp
    · rw [foldl_dictInsert_lookup_not_mem _ _ _ hmem] at h
      simp [List.lookup] at h
  · intro h
    exact foldl_dictInsert_lookup_mem _ _ _ _ hnd
      (List.mem_map.mpr ⟨(k, v), h, rfl⟩)

/-- A concrete model of Python `int` on canonical decimal strings, used
to instantiate the round-trip theorem at concrete inputs. -/
def strToNat (s : String) : Nat :=
  s.data.foldl (fun acc c => acc * 10 + (c.toNat - 48)) 0

/-- Witness for C3: the concrete mapper `{10 ↦ 1, 20 ↦ 2}` written and
read back recovers `10` from the new id `1`. -/
theorem write_read_key_roundtrip_witness :
    (read_key strToNat strToNat (write_key Nat.repr [(10, 1), (20, 2)])).lookup 1 =
      some 10 :=
  (write_read_key_roundtrip Nat.repr strToNat strToNat [(10, 1), (20, 2)]
    (by decide) (by decide) (by decide) 10 1).mpr (by decide)

/-- Lines 75 and 78 of `run_reneel.py`:
`per_cpu = max(ensemble_size // n_cpu, 1)`. -/
def ensemble_per_cpu (e n : Nat) : Nat := max (e / n) 1

/-- The effective ensemble size the run proceeds with, i.e. the value
`per_cpu * n_cpu` that the warning message reports as
"Using rg ensemble size ...". -/
def effective_ensemble (e n : Nat) : Nat := ensemble_per_cpu e n * n

/-- Whether the warning at lines 76–77 / 79–80 of `run_reneel.py` is
logged: `per_cpu * n_cpu != ensemble_size`. -/
def ensemble_warns (e n : Nat) : Bool := effective_ensemble e n ≠ e

/-- Counterexample to C5 as stated: with requested ensemble size `3`
and `4` processors, `4` does not divide `3` and the warning fires, but
the effective ensemble size is `max(3 // 4, 1) * 4 = 4`, which differs
from the floor `(3 // 4) * 4 = 0` and exceeds `3`. -/
theorem ensemble_floor_counterexample :
    ¬ (4 ∣ 3) ∧ ensemble_warns 3 4 = true ∧ effective_ensemble 3 4 = 4
    ∧ effective_ensemble 3 4 ≠ 3 / 4 * 4 ∧ ¬ effective_ensemble 3 4 ≤ 3 := by
  decide

/-- C5 (amended): when `n` does not divide `e` the run proceeds with a
logged warning and effective ensemble size `max(e // n, 1) * n`; when
`n ≤ e` this is the floor `(e // n) * n`, which is at most `e`, but
when `e < n` the per-cpu count is clamped to `1` and the effective size
is `n`, which exceeds `e`. -/
theorem ensemble_floor_amended (e n : Nat) (hnd : ¬ n ∣ e) :
    ensemble_warns e n = true
    ∧ (n ≤ e → effective_ensemble e n = e / n * n ∧ effective_ensemble e n ≤ e)
    ∧ (e < n → effective_ensemble e n = n) := by
  rcases Nat.eq_zero_or_pos n with rfl | hn
  · have he : e ≠ 0 := fun h => hnd (by simp [h])
    have h0 : effective_ensemble e 0 = 0 := by
      simp [effective_ensemble, ensemble_per_cpu]
    refine ⟨?_, fun _ => by simp [h0], fun h => absurd h (Nat.not_lt_zero e)⟩
    simp only [ensemble_warns, h0, ne_eq, decide_eq_true_eq]
    omega
  · by_cases hen : e < n
    · have hdiv : e / n = 0 := Nat.div_eq_of_lt hen
      have heff : effective_ensemble e n = n := by
        simp [effective_ensemble, ensemble_per_cpu, hdiv]
      refine ⟨?_, fun hle => absurd hle (by omega), fun _ => heff⟩
      simp only [ensemble_warns, heff, ne_eq, decide_eq_true_eq]
      omega
    · push_neg at hen
      have h1 : 1 ≤ e / n := (Nat.one_le_div_iff hn).mpr hen
      have heff : effective_ensemble e n = e / n * n := by
        simp [effective_ensemble, ensemble_per_cpu, Nat.max_eq_left h1]
      have hle : e / n * n ≤ e := Nat.div_mul_le_self e n
      have hne : e / n * n ≠ e := by
        intro h
        refine hnd ⟨e / n, ?_⟩
        rw [Nat.mul_comm]
        exact h.symm
      refine ⟨?_, fun _ => ⟨heff, heff ▸ hle⟩, fun hlt => absurd hlt (by omega)⟩
      simp only [ensemble_warns, heff, ne_eq, decide_eq_true_eq]
      exact hne

/-- Witness for the amended C5: ensemble size `10` on `3` processors
warns and proceeds with `(10 // 3) * 3 = 9 ≤ 10`. -/
theorem ensemble_floor_amended_witness :
    ensemble_warns 10 3 = true
    ∧ effective_ensemble 10 3 = 10 / 3 * 3 ∧ effective_ensemble 10 3 ≤ 10 :=
  ⟨(ensemble_floor_amended 10 3 (by decide)).1,
   (ensemble_floor_amended 10 3 (by decide)).2.1 (by decide)⟩

/-- The dataframe produced by the merge step of `load_partition` in
`format_edgelist.py` (lines 169–176), restricted to one pre-existing
column: the index after `existing_df.merge(df, how="outer")` on the
node index, the pre-existing column and the newly added chi column.
A `none` cell is a pandas NaN. -/
structure MergedFrame where
  index : List Int
  existingCol : Int → Option Int
  newCol : Int → Option Int

/-- `existing_df.merge(df, left_index=True, right_index=True,
how="outer")` followed by `merged[col] = merged[col].fillna(0)` where
`col` is the newly added chi column only: the merged index is the union
of both sides, a cell of the pre-existing column is its lookup (NaN
when the node is absent from the existing side), and every cell of the
new column is its lookup with NaN replaced by `0`. -/
def merge_outer_fillna (edf ndf : List (Int × Int)) : MergedFrame where
  index := edf.map Prod.fst ++
    ((ndf.map Prod.fst).filter fun n => decide (n ∉ edf.map Prod.fst))
  existingCol := fun n => edf.lookup n
  newCol := fun n => some ((ndf.lookup n).getD 0)

/-- `pd.concat(parts, axis=1)` at line 121 of `reneelutil/data.py`
(`load_selected_runs`): an outer join of the run columns; the cell of
run `i` at node `n` is that run's lookup, which stays missing (NaN,
`none`) when node `n` is absent from run `i` — no zero-filling. -/
def concat_outer (parts : List (List (Int × Int))) (n : Int) : List (Option Int) :=
  parts.map fun part => part.lookup n

/-- Counterexample to C4 as stated: merging the partitions `{1 ↦ 5}`
and `{2 ↦ 7}` over disjoint node sets, node `2` is in the merged index
but its entry in the pre-existing column is left missing (NaN), not
zero; and `pd.concat` in `load_selected_runs` leaves node `1`'s entry
in the second run's column missing as well. -/
theorem merge_zero_fill_counterexample :
    (merge_outer_fillna [(1, 5)] [(2, 7)]).existingCol 2 = none
    ∧ (2 : Int) ∈ (merge_outer_fillna [(1, 5)] [(2, 7)]).index
    ∧ concat_outer [[(1, 5)], [(2, 7)]] 1 = [some 5, none] := by
  decide

theorem lookup_eq_none_of_not_mem_keys {κ ν : Type} [DecidableEq κ]
    (l : List (κ × ν)) (k : κ) (h : k ∉ l.map Prod.fst) : l.lookup k = none := by
  induction l with
  | nil => rfl
  | cons p rest ih =>
      obtain ⟨a, x⟩ := p
      simp only [List.map_cons, List.mem_cons, not_or] at h
      simp only [List.lookup, beq_eq_false_iff_ne.mpr h.1]
      exact ih h.2

/-- C4 (amended): both loaders join with an outer join on node id (the
merged index contains every node of either side), but only the newly
added column of `load_partition` is zero-filled — a node absent from
the new side gets `0` there, while the pre-existing column keeps a
missing (NaN) entry for a node absent from the existing side — and
`pd.concat` in `load_selected_runs` leaves every such missing entry
missing rather than zero. -/
theorem merge_outer_amended (edf ndf : List (Int × Int)) (n : Int) :
    (n ∈ edf.map Prod.fst ∨ n ∈ ndf.map Prod.fst →
        n ∈ (merge_outer_fillna edf ndf).index)
    ∧ (n ∉ ndf.map Prod.fst → (merge_outer_fillna edf ndf).newCol n = some 0)
    ∧ (n ∉ edf.map Prod.fst → (merge_outer_fillna edf ndf).existingCol n = none)
    ∧ ∀ (parts : List (List (Int × Int))) (i : Nat) (part : List (Int × Int)),
        parts[i]? = some part → n ∉ part.map Prod.fst →
        (concat_outer parts n)[i]? = some none := by
  refine ⟨?_, ?_, ?_, ?_⟩
  · intro h
    rcases h with h | h
    · exact List.mem_append.mpr (Or.inl h)
    · by_cases he : n ∈ edf.map Prod.fst
      · exact List.mem_append.mpr (Or.inl he)
      · exact List.mem_append.mpr (Or.inr (List.mem_filter.mpr ⟨h, by simpa using he⟩))
  · intro h
    simp [merge_outer_fillna, lookup_eq_none_of_not_mem_keys ndf n h]
  · intro h
    simp [merge_outer_fillna, lookup_eq_none_of_not_mem_keys edf n h]
  · intro parts i part hi hmem
    rw [concat_outer, List.getElem?_map, hi]
    simp [lookup_eq_none_of_not_mem_keys part n hmem]

/-- Witness for the amended C4 at the disjoint partitions `{1 ↦ 5}` and
`{2 ↦ 7}`: node `1` gets `0` in the new column, node `2` is in the
merged index with a missing existing-column entry, and the concat
loader keeps `none` for node `1` in the second run. -/
theorem merge_outer_amended_witness :
    (merge_outer_fillna [(1, 5)] [(2, 7)]).newCol 1 = some 0
    ∧ (2 : Int) ∈ (merge_outer_fillna [(1, 5)] [(2, 7)]).index
    ∧ (concat_outer [[(1, 5)], [(2, 7)]] 1)[1]? = some none :=
  ⟨(merge_outer_amended [(1, 5)] [(2, 7)] 1).2.1 (by decide),
   (merge_outer_amended [(1, 5)] [(2, 7)] 2).1 (Or.inr (by decide)),
   (merge_outer_amended [(1, 5)] [(2, 7)] 1).2.2.2 [[(1, 5)], [(2, 7)]] 1 [(2, 7)]
     (by decide) (by decide)⟩

/-- Python whitespace for `str.strip`/`str.split`. -/
def isPySpace (c : Char) : Bool :=
  c = ' ' ∨ c = '\t' ∨ c = '\n' ∨ c = '\r' ∨ c = '\x0b' ∨ c = '\x0c'

/-- Python `str.strip()`. -/
def pyStrip (s : String) : String :=
  ⟨((s.data.dropWhile isPySpace).reverse.dropWhile isPySpace).reverse⟩

/-- Helper for `str.split()` with `sep=None`: split at whitespace runs,
producing no empty fields. -/
def splitWsAux : List Char → List Char → List (List Char)
  | [], acc => if acc.isEmpty then [] else [acc.reverse]
  | c :: rest, acc =>
      if isPySpace c then
        if acc.isEmpty then splitWsAux rest []
        else acc.reverse :: splitWsAux rest []
      else splitWsAux rest (c :: acc)

/-- Python `line.split()` (the `sep=None` default of `read_graph`). -/
def pySplitWs (s : String) : List String :=
  (splitWsAux s.data []).map String.mk

/-- A concrete model of Python `int` as used for node and weight
conversion: an optional sign followed by decimal digits; anything else
raises `ValueError` (`none`). -/
def strToIntOpt (s : String) : Option Int :=
  match s.data with
  | '-' :: rest =>
      if rest ≠ [] ∧ rest.all Char.isDigit then some (-(strToNat ⟨rest⟩ : Int))
      else none
  | cs =>
      if cs ≠ [] ∧ cs.all Char.isDigit then some ((strToNat s : Nat) : Int)
      else none

/-- The configuration of the reading loop of `read_graph`: the line
splitter (`sep`), the three column indices and the two converters.
A converter returning `none` is a raised `ValueError`. -/
structure ReadCfg (α : Type) where
  sp : String → List String
  uCol : Nat
  vCol : Nat
  wCol : Nat
  cvt : String → Option α
  wcvt : String → Option Int

/-- The possible outcomes of the reading loop of `read_graph`:
a final state, the `logging.critical` + `exit(1)` path of lines 49–51
(which logs the offending line), or an exception raised outside the
`try` block (line 52's conversions), which aborts the process without
that diagnostic. -/
inductive ReadResult (α : Type) where
  | ok (st : GraphState α)
  | fatalLogged (lineno : Nat) (line : String)
  | exn (lineno : Nat)
deriving DecidableEq

/-- Lines 42–62 of `format_edgelist.py`: for each numbered line, skip
it when blank; otherwise extract the three columns inside the `try`
(an `IndexError` is caught, logged with the offending line and turns
into `exit(1)`), then convert the three fields outside the `try` (a
conversion failure propagates as an uncaught exception) and update the
state unless the edge is a self-loop. -/
def readLoop {α : Type} [LinearOrder α] (d : Bool) (cfg : ReadCfg α) :
    GraphState α → List (Nat × String) → ReadResult α
  | st, [] => .ok st
  | st, (no, line) :: rest =>
      if pyStrip line ≠ "" then
        match (cfg.sp line)[cfg.uCol]?, (cfg.sp line)[cfg.vCol]?,
            (cfg.sp line)[cfg.wCol]? with
        | some us, some vs, some ws =>
            match cfg.cvt (pyStrip us), cfg.cvt (pyStrip vs),
                cfg.wcvt (pyStrip ws) with
            | some u, some v, some w => readLoop d cfg (processLine d st (u, v, w)) rest
            | _, _, _ => .exn no
        | _, _, _ => .fatalLogged no line
      else readLoop d cfg st rest

/-- `read_graph` on the raw file: drop the first `skip` lines, number
the remaining ones by their absolute position (the `lineno + skip`
reported in the diagnostics) and run the loop from the empty state. -/
def read_graph_raw {α : Type} [LinearOrder α] (d : Bool) (cfg : ReadCfg α)
    (skip : Nat) (ls : List String) : ReadResult α :=
  readLoop d cfg GraphState.empty
    ((List.range' (skip + 1) (ls.drop skip).length).zip (ls.drop skip))

/-- The default configuration of `format_edgelist.py`: whitespace
splitting, columns `0 1 2`, `int` node and weight conversion. -/
def intCfg : ReadCfg Int :=
  ⟨pySplitWs, 0, 1, 2, strToIntOpt, strToIntOpt⟩

def isFatalLogged {α : Type} : ReadResult α → Bool
  | .fatalLogged _ _ => true
  | _ => false

def isAbort {α : Type} : ReadResult α → Bool
  | .ok _ => false
  | _ => true

/-- Counterexample to C6 as stated: on the edgelist whose only line is
`"1 2 x"` — three fields, but the weight fails `int` conversion — the
run aborts via an uncaught exception (the conversions at line 52 sit
outside the `try` block), not via the logged-diagnostic-and-exit path,
so no diagnostic including the offending line is logged. -/
theorem malformed_line_counterexample :
    read_graph_raw false intCfg 0 ["1 2 x"] = ReadResult.exn 1
    ∧ isAbort (read_graph_raw false intCfg 0 ["1 2 x"]) = true
    ∧ isFatalLogged (read_graph_raw false intCfg 0 ["1 2 x"]) = false := by
  decide

/-- C6 (amended): a malformed non-blank line always aborts the whole
run rather than being skipped — but along two different paths: when the
line's source/target/weight fields cannot be extracted, `read_graph`
logs the critical diagnostic including the offending line and exits;
when the fields extract but a conversion to the configured types fails,
the exception is raised outside the `try` and the run aborts without
that diagnostic. In both cases the rest of the file is never
processed. -/
theorem read_graph_malformed_amended {α : Type} [LinearOrder α] (d : Bool)
    (cfg : ReadCfg α) (st : GraphState α) (no : Nat) (line : String)
    (rest : List (Nat × String)) (hblank : pyStrip line ≠ "") :
    ((cfg.sp line)[cfg.uCol]? = none ∨ (cfg.sp line)[cfg.vCol]? = none ∨
        (cfg.sp line)[cfg.wCol]? = none →
      readLoop d cfg st ((no, line) :: rest) = ReadResult.fatalLogged no line)
    ∧ (∀ us vs ws,
        (cfg.sp line)[cfg.uCol]? = some us → (cfg.sp line)[cfg.vCol]? = some vs →
        (cfg.sp line)[cfg.wCol]? = some ws →
        cfg.cvt (pyStrip us) = none ∨ cfg.cvt (pyStrip vs) = none ∨
          cfg.wcvt (pyStrip ws) = none →
        readLoop d cfg st ((no, line) :: rest) = ReadResult.exn no) := by
  constructor
  · intro h
    cases hu : (cfg.sp line)[cfg.uCol]? with
    | none => simp [readLoop, hblank, hu]
    | some us =>
        cases hv' : (cfg.sp line)[cfg.vCol]? with
        | none => simp [readLoop, hblank, hu, hv']
        | some vs =>
            cases hw : (cfg.sp line)[cfg.wCol]? with
            | none => simp [readLoop, hblank, hu, hv', hw]
            | some ws => simp [hu, hv', hw] at h
  · intro us vs ws hu hv' hw h
    cases hcu : cfg.cvt (pyStrip us) with
    | none => simp [readLoop, hblank, hu, hv', hw, hcu]
    | some u =>
        cases hcv : cfg.cvt (pyStrip vs) with
        | none => simp [readLoop, hblank, hu, hv', hw, hcu, hcv]
        | some v =>
            cases hcw : cfg.wcvt (pyStrip ws) with
            | none => simp [readLoop, hblank, hu, hv', hw, hcu, hcv, hcw]
            | some w => simp [hcu, hcv, hcw] at h

/-- Witness for the amended C6: the two-field line `"1 2"` takes the
logged fatal path; the line `"1 2 x"` (weight fails conversion) takes
the uncaught-exception path. -/
theorem read_graph_malformed_amended_witness :
    readLoop false intCfg GraphState.empty [(1, "1 2")] = ReadResult.fatalLogged 1 "1 2"
    ∧ readLoop false intCfg GraphState.empty [(1, "1 2 x")] = ReadResult.exn 1 :=
  ⟨(read_graph_malformed_amended false intCfg GraphState.empty 1 "1 2" []
      (by decide)).1 (by decide),
   (read_graph_malformed_amended false intCfg GraphState.empty 1 "1 2 x" []
      (by decide)).2 "1" "2" "x" (by decide) (by decide) (by decide) (by decide)⟩

/-- What happens after `subprocess.run` returns in
`run_reneel_and_collect_output` (`run_reneel.py` lines 115–127). Line
119 tests `reneelrun.completed_process.returncode`, but `reneelrun` is
not the function's parameter (named `reneel_run`) — it is the variable
bound in the script's `__main__` block. When that module-level name is
bound (the script path, where it aliases the very run that was passed
in) the nonzero return code only logs a warning and the partition copy
proceeds; in any other calling context evaluating `reneelrun` raises
`NameError` before the copy, regardless of the return code. -/
inductive RunOutcome where
  | nameError
  | finished (warned : Bool) (partitionCopied : Bool)
deriving DecidableEq

/-- The tail of `run_reneel_and_collect_output` after the subprocess:
`globalBound` says whether the module-level name `reneelrun` is bound
(to the run being processed, as in the script's `__main__` loop). -/
def after_subprocess (globalBound : Bool) (returncode : Int) : RunOutcome :=
  if globalBound then .finished (returncode ≠ 0) true
  else .nameError

/-- C7: with the `__main__` global bound, a nonzero return code is only
a warning and the partition copy is still attempted (the claim's
behaviour); but the function body itself names `reneelrun` instead of
its parameter `reneel_run`, so called as a plain function the run dies
with `NameError` before the copy — even on a zero return code. -/
theorem run_reneel_nonzero_exit_bug :
    after_subprocess true 1 = RunOutcome.finished true true
    ∧ after_subprocess false 1 = RunOutcome.nameError
    ∧ after_subprocess false 0 = RunOutcome.nameError := by
  decide

/-- Index of the last `'.'` in a character list (Python `str.rfind`). -/
def rfindDot : List Char → Option Nat
  | [] => none
  | c :: rest =>
      match rfindDot rest with
      | some i => some (i + 1)
      | none => if c = '.' then some 0 else none

/-- `PurePath(name).stem`: the name without its final extension. As in
CPython's pathlib, there is a suffix only when the last dot sits
strictly inside the name (`0 < i < len(name) - 1`). -/
def pathStem (s : String) : String :=
  match rfindDot s.data with
  | none => s
  | some i => if 0 < i ∧ i < s.data.length - 1 then ⟨s.data.take i⟩ else s

/-- Split a character list at every occurrence of `sep`
(Python `str.split(sep)` for a one-character separator). -/
def splitOnCharAux (sep : Char) : List Char → List Char → List (List Char)
  | [], acc => [acc.reverse]
  | c :: rest, acc =>
      if c = sep then acc.reverse :: splitOnCharAux sep rest []
      else splitOnCharAux sep rest (c :: acc)

/-- Rejoin pieces with `sep` between them. -/
def joinSep (sep : Char) : List (List Char) → List Char
  | [] => []
  | [l] => l
  | l :: rest => l ++ sep :: joinSep sep rest

/-- Python `s.split(sep, maxsplit=k)`: only the first `k` separators
split; the remainder stays one piece. -/
def splitAtMostChar (sep : Char) (k : Nat) (s : String) : List String :=
  let parts := splitOnCharAux sep s.data []
  (if parts.length ≤ k + 1 then parts
   else parts.take k ++ [joinSep sep (parts.drop k)]).map String.mk

/-- `_get_filename_parts` of `reneelutil/data.py`:
`Path(path).stem.split("_", maxsplit=2)`. -/
def _get_filename_parts (s : String) : List String :=
  splitAtMostChar '_' 2 (pathStem s)

/-- Python `str.startswith` at character level. -/
def startsWithChars : List Char → List Char → Bool
  | _, [] => true
  | [], _ :: _ => false
  | c :: cs, d :: ds => c = d && startsWithChars cs ds

def strStartsWith (s pat : String) : Bool := startsWithChars s.data pat.data

/-- One row of the dataframe built by `get_available_clustering`:
`(name, chi, seed, id, file)`. -/
structure ClusterRow (χ : Type) where
  name : String
  chi : χ
  seed : Int
  tmpId : String
  file : String
deriving DecidableEq

/-- One iteration of the loop of `get_available_clustering`
(`reneelutil/data.py` lines 73–84): unpack the stem into three
`_`-separated parts, the third into three `-`-separated parts, then
convert seed with `int` and chi with `float`. Each `ValueError`
(`none`) is caught by a `try`/`except ValueError: continue`, so an
unparseable file contributes nothing. `pInt` and `pFloat` model the
Python conversions. -/
def parseClusterFile {χ : Type} (pInt : String → Option Int)
    (pFloat : String → Option χ) (file : String) : Option (ClusterRow χ) :=
  match _get_filename_parts file with
  | [_, name, rem] =>
      match splitAtMostChar '-' 2 rem with
      | [seedStr, chiStr, tmp] =>
          match pInt seedStr, pFloat chiStr with
          | some seed, some chi => some ⟨name, chi, seed, tmp, file⟩
          | _, _ => none
      | _ => none
  | _ => none

/-- Ordering used by `sort_values(["name", "chi"])`. -/
def clusterLe {χ : Type} [LinearOrder χ] (r s : ClusterRow χ) : Bool :=
  decide (r.name < s.name ∨ (r.name = s.name ∧ r.chi ≤ s.chi))

/-- `get_available_clustering` of `reneelutil/data.py`: keep the files
whose name starts with `"partition"`, parse each under the
`type_name_seed-chi-id` convention (dropping the unparseable ones), and
sort the rows by `(name, chi)`. -/
def get_available_clustering {χ : Type} [LinearOrder χ]
    (pInt : String → Option Int) (pFloat : String → Option χ)
    (listing : List String) : List (ClusterRow χ) :=
  ((listing.filter fun f => strStartsWith f "partition").filterMap
    (parseClusterFile pInt pFloat)).mergeSort clusterLe

theorem parseClusterFile_some {χ : Type} (pInt : String → Option Int)
    (pFloat : String → Option χ) (f : String) (r : ClusterRow χ)
    (h : parseClusterFile pInt pFloat f = some r) :
    r.file = f ∧ (∃ s, pInt s = some r.seed) ∧ (∃ c, pFloat c = some r.chi) := by
  unfold parseClusterFile at h
  split at h
  · split at h
    · split at h
      · rename_i hseed hchi
        obtain rfl := Option.some_inj.mp h
        exact ⟨rfl, ⟨_, hseed⟩, ⟨_, hchi⟩⟩
      · exact absurd h (by simp)
    · exact absurd h (by simp)
  · exact absurd h (by simp)

/-- C10: `get_available_clustering` never fails on a `partition…` file
that does not parse under the `type_name_seed-chi-id` convention: every
row of its result comes from a listed `partition…` file that parsed
fully — in particular its seed was produced by `int` and its chi by
`float` — and a file whose parse raises contributes no row at all. -/
theorem get_available_clustering_skips_bad {χ : Type} [LinearOrder χ]
    (pInt : String → Option Int) (pFloat : String → Option χ)
    (listing : List String) :
    (∀ r ∈ get_available_clustering pInt pFloat listing,
        ∃ f ∈ listing, strStartsWith f "partition" = true
          ∧ parseClusterFile pInt pFloat f = some r ∧ r.file = f
          ∧ (∃ s, pInt s = some r.seed) ∧ (∃ c, pFloat c = some r.chi))
    ∧ ∀ f ∈ listing, parseClusterFile pInt pFloat f = none →
        ∀ r ∈ get_available_clustering pInt pFloat listing, r.file ≠ f := by
  have hmem : ∀ r : ClusterRow χ, r ∈ get_available_clustering pInt pFloat listing →
      ∃ f ∈ listing, strStartsWith f "partition" = true
        ∧ parseClusterFile pInt pFloat f = some r := by
    intro r hr
    rw [get_available_clustering] at hr
    rw [(List.mergeSort_perm _ clusterLe).mem_iff] at hr
    rcases List.mem_filterMap.mp hr with ⟨f, hf, hparse⟩
    rcases List.mem_filter.mp hf with ⟨hlist, hstart⟩
    exact ⟨f, hlist, hstart, hparse⟩
  constructor
  · intro r hr
    rcases hmem r hr with ⟨f, hlist, hstart, hparse⟩
    rcases parseClusterFile_some pInt pFloat f r hparse with ⟨hfile, hs, hc⟩
    exact ⟨f, hlist, hstart, hparse, hfile, hs, hc⟩
  · intro f _ hnone r hr hfile
    rcases hmem r hr with ⟨f', _, _, hparse⟩
    rcases parseClusterFile_some pInt pFloat f' r hparse with ⟨hfile', _, _⟩
    rw [hfile'.symm.trans hfile] at hparse
    rw [hnone] at hparse
    exact Option.noConfusion hparse

/-- A concrete model of Python `float` on plain decimal literals, used
only to instantiate the C10 theorem at concrete inputs: digit
characters with at most one dot, kept as the literal itself. -/
def strToFloatLit (s : String) : Option String :=
  if !s.data.isEmpty && s.data.all (fun c => c.isDigit || c = '.')
      && s.data.count '.' ≤ 1 then
    some s
  else none

/-- Witness for C10 on the listing
`["partition_net_7-0.5-ab.txt", "partition_bad.txt"]`: the second file
starts with `partition` but has too few `_`-separated parts, so no row
of the result comes from it. -/
theorem get_available_clustering_skips_bad_witness :
    (get_available_clustering strToIntOpt strToFloatLit
        ["partition_net_7-0.5-ab.txt", "partition_bad.txt"]).all
      (fun r => r.file ≠ "partition_bad.txt") = true := by
  apply List.all_eq_true.mpr
  intro r hr
  have h := (get_available_clustering_skips_bad strToIntOpt strToFloatLit
      ["partition_net_7-0.5-ab.txt", "partition_bad.txt"]).2
    "partition_bad.txt" (by decide) (by decide) r hr
  simpa using h

end ReneelUtils
